import Mathlib

/-!
# Verification of the OOR (Out-of-Range) Serial Parser

Shallow embedding of `modules/module_2/ui_components/oor_parser.py`.
Strings are modelled as `List Char`; Python `int` is modelled as `Int`
(Python integers are unbounded).  Python's `str.strip`, `re.split`,
`str.split`, `int(...)` and `str(...)` are embedded by the helper
functions below; the class `OORParser`'s mutable fields `entries` /
`total_qty` become the record `OORState`, and `parse` becomes a pure
function from the input text to the returned boolean together with the
state the instance holds after the call (the state before the call is
irrelevant because `parse` resets it on entry).

Modelling choices for character classes: whitespace is the six ASCII
whitespace characters Python strips; digits are the ASCII digits
`'0'..'9'` (Python additionally accepts some non-ASCII characters in
these classes; no claim depends on them).
-/

/-- The ASCII whitespace characters removed by Python's `str.strip()`. -/
def pyWs (c : Char) : Bool :=
  c = ' ' || c = '\t' || c = '\n' || c = '\x0d' || c = '\x0b' || c = '\x0c'

/-- Embedding of Python's `str.strip()`: drop leading and trailing whitespace. -/
def pyStrip (s : List Char) : List Char :=
  ((s.dropWhile pyWs).reverse.dropWhile pyWs).reverse

/-- Embedding of `re.split` / `str.split` with a one-character separator
class: split at every separator, keeping empty pieces.  The result is
always non-empty. -/
def splitCh (sep : Char → Bool) : List Char → List (List Char)
  | [] => [[]]
  | c :: cs =>
    if sep c then [] :: splitCh sep cs
    else
      match splitCh sep cs with
      | [] => [[c]]
      | t :: ts => (c :: t) :: ts

/-- Tail of a Python decimal digit run: `(["_"] digit)*` — an underscore
must be followed (and, via `digitRun`, preceded) by a digit. -/
def digitTail : List Char → Bool
  | [] => true
  | c :: rest =>
    if c = '_' then
      match rest with
      | [] => false
      | d :: rest2 => d.isDigit && digitTail rest2
    else c.isDigit && digitTail rest

/-- A valid Python decimal digit run `digit (["_"] digit)*` (the body of a
base-10 integer literal accepted by `int(...)`). -/
def digitRun : List Char → Bool
  | [] => false
  | c :: rest => c.isDigit && digitTail rest

/-- Numeric value of a digit character. -/
def digitVal (c : Char) : Nat := c.toNat - '0'.toNat

/-- Value of a digit run: underscores removed, read base 10.
(`digitsVal [] = 0`.) -/
def digitsVal (s : List Char) : Nat :=
  List.foldl (fun acc c => acc * 10 + digitVal c) 0 (s.filter fun c => !(c = '_'))

/-- Embedding of Python's `int(s)` on a string: strip whitespace, allow one
leading sign, require a valid digit run; `none` models `ValueError`. -/
def pyInt? (s : List Char) : Option Int :=
  match pyStrip s with
  | '+' :: rest => if digitRun rest then some (digitsVal rest : Int) else none
  | '-' :: rest => if digitRun rest then some (-(digitsVal rest : Int)) else none
  | t => if digitRun t then some (digitsVal t : Int) else none

/-- The instance state of `OORParser`: fields `entries` and `total_qty`. -/
structure OORState where
  entries : List (Int × Int)
  total_qty : Int
deriving DecidableEq

/-- The state set by `__init__` and by the reset at the top of `parse`. -/
def initState : OORState := ⟨[], 0⟩

/-- Separator class of `re.split(r'[,;]', oor_text)`. -/
def sepCh (c : Char) : Bool := c = ',' || c = ';'

/-- One iteration of the `for part in parts` loop of `OORParser.parse`
(lines 41-71): `none` models the `return False` paths, `some st'` the
state after the iteration.  An empty trimmed token is skipped
(`continue`); a token containing `'-'` must split on `'-'` into exactly
two parts, both parsed by `int`, with `start <= end`; any other token
must parse as a single integer. -/
def procToken (st : OORState) (part : List Char) : Option OORState :=
  let p := pyStrip part
  if p.isEmpty then some st
  else if p.contains '-' then
    match splitCh (fun c => c = '-') p with
    | [a, b] =>
      match pyInt? (pyStrip a), pyInt? (pyStrip b) with
      | some s, some e =>
        if s > e then none
        else some ⟨st.entries ++ [(s, e)], st.total_qty + (e - s + 1)⟩
      | _, _ => none
    | _ => none
  else
    match pyInt? p with
    | some n => some ⟨st.entries ++ [(n, n)], st.total_qty + 1⟩
    | none => none

/-- The token loop of `parse`: on the first failing token the function
returns `False` with the state accumulated so far (the Python `return
False` statements leave `self.entries` / `self.total_qty` as they are at
that point). -/
def parseLoop (st : OORState) : List (List Char) → Bool × OORState
  | [] => (true, st)
  | p :: ps =>
    match procToken st p with
    | some st' => parseLoop st' ps
    | none => (false, st)

/-- Embedding of `OORParser.parse` (lines 17-73): the returned boolean
together with the instance state after the call. -/
def parse (text : List Char) : Bool × OORState :=
  if text.isEmpty || (pyStrip text).isEmpty then (true, initState)
  else parseLoop initState (splitCh sepCh text)

/-- Embedding of Python's `str(n)` for `n : Nat`: digit accumulator with
a fuel parameter so the definition is structural (and so computes by
plain iota reduction); `natToDigits` supplies enough fuel. -/
def natToDigitsAux : Nat → Nat → List Char → List Char
  | 0, _, acc => acc
  | fuel + 1, n, acc =>
    if n < 10 then Nat.digitChar n :: acc
    else natToDigitsAux fuel (n / 10) (Nat.digitChar (n % 10) :: acc)

/-- Decimal digits of a natural number (`natToDigits 0 = ['0']`). -/
def natToDigits (n : Nat) : List Char := natToDigitsAux (n + 1) n []

/-- Embedding of Python's `str` on an integer. -/
def intStr (n : Int) : List Char :=
  if n < 0 then '-' :: natToDigits n.natAbs else natToDigits n.toNat

/-- The token `format_display` emits for one entry: `"start-end"` for a
proper range, `"start"` for a single. -/
def entryStr (e : Int × Int) : List Char :=
  if e.1 = e.2 then intStr e.1 else intStr e.1 ++ '-' :: intStr e.2

/-- `", ".join(parts)` / `"\n".join(lines)`: join with a separator list. -/
def joinSep (sep : List Char) : List (List Char) → List Char
  | [] => []
  | [x] => x
  | x :: xs => x ++ sep ++ joinSep sep xs

/-- The full textual reconstruction `full_text` built by `format_display`
(lines 116-123). -/
def reconstruct (st : OORState) : List Char :=
  joinSep ((", ").data) (st.entries.map entryStr)

/-- Embedding of `OORParser.format_display` (lines 102-130). -/
def format_display (st : OORState) (max_length : Nat) : List Char :=
  if st.entries.isEmpty then []
  else
    let full_text := reconstruct st
    if full_text.length ≤ max_length then full_text
    else natToDigits st.entries.length ++ (" entries (").data ++ intStr st.total_qty ++ (")").data

/-- The numbered lines built by `get_detailed_breakdown`'s loop over
`enumerate(self.entries, 1)` (lines 142-148), starting at index `i`. -/
def breakdownLines (i : Nat) : List (Int × Int) → List (List Char)
  | [] => []
  | e :: rest =>
    (if e.1 = e.2 then
      natToDigits i ++ (". ").data ++ intStr e.1 ++ (" (1 item)").data
    else
      natToDigits i ++ (". ").data ++ intStr e.1 ++ '-' :: intStr e.2 ++
        (" (").data ++ intStr (e.2 - e.1 + 1) ++ (" items)").data)
    :: breakdownLines (i + 1) rest

/-- Embedding of `OORParser.get_detailed_breakdown` (lines 132-151): the
last appended line carries a leading `'\n'`, so the `"\n".join` renders a
blank line before the total. -/
def get_detailed_breakdown (st : OORState) : List Char :=
  if st.entries.isEmpty then ("No entries").data
  else
    joinSep (("\n").data)
      (breakdownLines 1 st.entries ++
        ['\n' :: ("Total: ").data ++ intStr st.total_qty ++ (" items").data])

/-- Embedding of `OORParser.calculate_qty_from_range` (lines 75-96).
`int(re.sub(r'\D', '', s))` raises `ValueError` exactly when `s` is
non-empty but contains no digit (the guard `if beg_ser else 0` handles
the empty string); the `except` branch then returns 0. -/
def calculate_qty_from_range (beg_ser end_ser : List Char) : Int :=
  let beg_digits := beg_ser.filter Char.isDigit
  let end_digits := end_ser.filter Char.isDigit
  if !beg_ser.isEmpty && beg_digits.isEmpty then 0
  else if !end_ser.isEmpty && end_digits.isEmpty then 0
  else
    let beg_num : Int := if beg_ser.isEmpty then 0 else (digitsVal beg_digits : Int)
    let end_num : Int := if end_ser.isEmpty then 0 else (digitsVal end_digits : Int)
    if 0 < beg_num ∧ beg_num ≤ end_num then end_num - beg_num + 1 else 0

/-- The constant error message of `validate_oor_text` (line 168). -/
def oorErrorMsg : List Char :=
  ("Invalid OOR format. Use ranges (1000-1010) or singles (1050), separated by commas.").data

/-- Embedding of the static method `OORParser.validate_oor_text`
(lines 153-168): a fresh parser instance is constructed and `parse` is
called on it. -/
def validate_oor_text (text : List Char) : Bool × List Char :=
  if (parse text).1 then (true, []) else (false, oorErrorMsg)

/-- Embedding of `OORParser.get_total_qty` (lines 98-100). -/
def get_total_qty (st : OORState) : Int := st.total_qty

/-- The internal-consistency invariant of the parser state: `total_qty`
is the sum of the interval sizes of `entries`, and every interval is
ordered (with, additionally, a non-negative start — `parse` can only
produce non-negative numbers since `'-'` is consumed as a separator). -/
def goodState (st : OORState) : Prop :=
  st.total_qty = (st.entries.map fun e => e.2 - e.1 + 1).sum ∧
  ∀ e ∈ st.entries, 0 ≤ e.1 ∧ e.1 ≤ e.2

/-- Decision of the `return False` paths of the token loop: whether a
token makes `parse` fail (independent of the accumulated state). -/
def tokenFails (part : List Char) : Bool :=
  let p := pyStrip part
  if p.isEmpty then false
  else if p.contains '-' then
    match splitCh (fun c => c = '-') p with
    | [a, b] =>
      match pyInt? (pyStrip a), pyInt? (pyStrip b) with
      | some s, some e => decide (s > e)
      | _, _ => true
    | _ => true
  else (pyInt? p).isNone

/-- A malformed token in the sense of the specification's error
taxonomy: the trimmed token is non-empty and is either a hyphen-free
token that does not parse as a base-10 integer, a hyphenated token that
does not split into exactly two integer parts, or a range whose first
integer is greater than its second. -/
def malformedToken (t : List Char) : Prop :=
  pyStrip t ≠ [] ∧
  (((pyStrip t).contains '-' = false ∧ pyInt? (pyStrip t) = none) ∨
   ((pyStrip t).contains '-' = true ∧
     ¬ (∃ a b x y, splitCh (fun c => c = '-') (pyStrip t) = [a, b] ∧
         pyInt? (pyStrip a) = some x ∧ pyInt? (pyStrip b) = some y)) ∨
   ((pyStrip t).contains '-' = true ∧
     (∃ a b x y, splitCh (fun c => c = '-') (pyStrip t) = [a, b] ∧
         pyInt? (pyStrip a) = some x ∧ pyInt? (pyStrip b) = some y ∧ x > y)))

/-- Processing a token list from a given state, `none` as soon as one
token fails: the successful prefix of the token loop. -/
def foldTokens (st : OORState) : List (List Char) → Option OORState
  | [] => some st
  | t :: ts =>
    match procToken st t with
    | some st' => foldTokens st' ts
    | none => none

/-- The digit-extraction of `calculate_qty_from_range` as the
specification describes it: keep only digit characters and read them in
base 10, the empty result counting as 0. -/
def extractNum (s : List Char) : Int := (digitsVal (s.filter Char.isDigit) : Int)

/-! ## Lemmas about `splitCh` -/

theorem splitCh_ne_nil (sep : Char → Bool) (l : List Char) : splitCh sep l ≠ [] := by
  induction l with
  | nil => simp [splitCh]
  | cons c cs ih =>
    simp only [splitCh]
    split
    · simp
    · cases h : splitCh sep cs <;> simp

theorem splitCh_nosep (sep : Char → Bool) (l : List Char)
    (h : ∀ c ∈ l, sep c = false) : splitCh sep l = [l] := by
  induction l with
  | nil => simp [splitCh]
  | cons c cs ih =>
    have hc : sep c = false := h c (by simp)
    have hrest : splitCh sep cs = [cs] := ih fun d hd => h d (by simp [hd])
    simp [splitCh, hc, hrest]

theorem splitCh_append_sep (sep : Char → Bool) (x : List Char) (s : Char) (rest : List Char)
    (hx : ∀ c ∈ x, sep c = false) (hs : sep s = true) :
    splitCh sep (x ++ s :: rest) = x :: splitCh sep rest := by
  induction x with
  | nil => simp [splitCh, hs]
  | cons c cs ih =>
    have hc : sep c = false := hx c (by simp)
    have htail : splitCh sep (cs ++ s :: rest) = cs :: splitCh sep rest :=
      ih fun d hd => hx d (by simp [hd])
    simp [splitCh, hc, htail]

theorem splitCh_piece_no_sep (sep : Char → Bool) (l piece : List Char)
    (hp : piece ∈ splitCh sep l) : ∀ c ∈ piece, sep c = false := by
  induction l generalizing piece with
  | nil =>
    simp [splitCh] at hp
    subst hp; simp
  | cons c cs ih =>
    simp only [splitCh] at hp
    by_cases hc : sep c = true
    · rw [if_pos hc] at hp
      rcases List.mem_cons.mp hp with h | h
      · subst h; simp
      · exact ih piece h
    · rw [if_neg hc] at hp
      cases hsp : splitCh sep cs with
      | nil => exact absurd hsp (splitCh_ne_nil sep cs)
      | cons t ts =>
        rw [hsp] at hp
        rcases List.mem_cons.mp hp with h | h
        · subst h
          intro d hd
          rcases List.mem_cons.mp hd with h | h
          · subst h; simpa using hc
          · exact ih t (by simp [hsp]) d h
        · exact ih piece (by simp [hsp, h])

theorem splitCh_piece_mem (sep : Char → Bool) (l piece : List Char)
    (hp : piece ∈ splitCh sep l) : ∀ c ∈ piece, c ∈ l := by
  induction l generalizing piece with
  | nil =>
    simp [splitCh] at hp
    subst hp; simp
  | cons c cs ih =>
    simp only [splitCh] at hp
    by_cases hc : sep c = true
    · rw [if_pos hc] at hp
      rcases List.mem_cons.mp hp with h | h
      · subst h; simp
      · exact fun d hd => List.mem_cons_of_mem c (ih piece h d hd)
    · rw [if_neg hc] at hp
      cases hsp : splitCh sep cs with
      | nil => exact absurd hsp (splitCh_ne_nil sep cs)
      | cons t ts =>
        rw [hsp] at hp
        rcases List.mem_cons.mp hp with h | h
        · subst h
          intro d hd
          rcases List.mem_cons.mp hd with h | h
          · subst h; simp
          · exact List.mem_cons_of_mem c (ih t (by simp [hsp]) d h)
        · exact fun d hd => List.mem_cons_of_mem c (ih piece (by simp [hsp, h]) d hd)

theorem splitCh_cons_piece (sep : Char → Bool) (c : Char) (l : List Char)
    (hc : sep c = false) (t : List Char) (ts : List (List Char))
    (h : splitCh sep l = t :: ts) : splitCh sep (c :: l) = (c :: t) :: ts := by
  simp [splitCh, hc, h]

/-! ## Lemmas about `pyStrip` -/

theorem mem_of_mem_dropWhile {p : Char → Bool} {l : List Char} {c : Char}
    (h : c ∈ l.dropWhile p) : c ∈ l := by
  induction l with
  | nil => simp at h
  | cons d ds ih =>
    rw [List.dropWhile_cons] at h
    split at h
    · exact List.mem_cons_of_mem d (ih h)
    · exact h

theorem mem_of_mem_pyStrip {s : List Char} {c : Char} (h : c ∈ pyStrip s) : c ∈ s := by
  unfold pyStrip at h
  rw [List.mem_reverse] at h
  have h2 := mem_of_mem_dropWhile h
  rw [List.mem_reverse] at h2
  exact mem_of_mem_dropWhile h2

theorem dropWhile_eq_nil_all {p : Char → Bool} {l : List Char}
    (h : l.dropWhile p = []) : ∀ c ∈ l, p c = true := by
  induction l with
  | nil => simp
  | cons d ds ih =>
    rw [List.dropWhile_cons] at h
    split at h
    · intro c hc
      rcases List.mem_cons.mp hc with h' | h'
      · subst h'; assumption
      · exact ih h c h'
    · exact absurd h (by simp)

theorem all_dropWhile_eq_nil {p : Char → Bool} {l : List Char}
    (h : ∀ c ∈ l, p c = true) : l.dropWhile p = [] := by
  induction l with
  | nil => simp
  | cons d ds ih =>
    rw [List.dropWhile_cons, if_pos (h d (by simp))]
    exact ih fun c hc => h c (by simp [hc])

theorem pyStrip_eq_nil_ws {s : List Char} (h : pyStrip s = []) : ∀ c ∈ s, pyWs c = true := by
  unfold pyStrip at h
  rw [List.reverse_eq_nil_iff] at h
  have h2 := dropWhile_eq_nil_all h
  intro c hc
  by_cases hdrop : c ∈ s.dropWhile pyWs
  · exact h2 c (by simpa using hdrop)
  · -- `c` was removed by the leading `dropWhile`, so it sits in the taken prefix
    have hsplit := List.takeWhile_append_dropWhile (p := pyWs) (l := s)
    rw [← hsplit] at hc
    rcases List.mem_append.mp hc with h' | h'
    · exact List.mem_takeWhile_imp h'
    · exact absurd h' hdrop

theorem ws_pyStrip_eq_nil {s : List Char} (h : ∀ c ∈ s, pyWs c = true) : pyStrip s = [] := by
  unfold pyStrip
  rw [all_dropWhile_eq_nil h]
  simp

theorem pyStrip_eq_self {s : List Char} (h : ∀ c ∈ s, pyWs c = false) : pyStrip s = s := by
  unfold pyStrip
  have h1 : s.dropWhile pyWs = s := by
    cases s with
    | nil => simp
    | cons c cs => rw [List.dropWhile_cons, if_neg (by simp [h c (by simp)])]
  rw [h1]
  have h2 : s.reverse.dropWhile pyWs = s.reverse := by
    cases hr : s.reverse with
    | nil => simp
    | cons c cs =>
      rw [List.dropWhile_cons, if_neg ?_]
      simp [h c (by rw [← List.mem_reverse, hr]; simp)]
  rw [h2, List.reverse_reverse]

theorem pyStrip_cons_ws {c : Char} (s : List Char) (h : pyWs c = true) :
    pyStrip (c :: s) = pyStrip s := by
  unfold pyStrip
  rw [List.dropWhile_cons, if_pos h]

/-! ## Character-class lemmas -/

theorem ws_not_digit {c : Char} (h : pyWs c = true) : c.isDigit = false := by
  simp only [pyWs, Bool.or_eq_true, decide_eq_true_eq] at h
  rcases h with ((((h | h) | h) | h) | h) | h <;> subst h <;> decide

theorem isDigit_not_ws {c : Char} (h : c.isDigit = true) : pyWs c = false := by
  cases hw : pyWs c with
  | false => rfl
  | true => rw [ws_not_digit hw] at h; exact absurd h (by simp)

theorem isDigit_ne_hyphen {c : Char} (h : c.isDigit = true) : c ≠ '-' :=
  fun he => by subst he; exact absurd h (by decide)

theorem isDigit_ne_plus {c : Char} (h : c.isDigit = true) : c ≠ '+' :=
  fun he => by subst he; exact absurd h (by decide)

theorem isDigit_ne_underscore {c : Char} (h : c.isDigit = true) : c ≠ '_' :=
  fun he => by subst he; exact absurd h (by decide)

theorem isDigit_not_sep {c : Char} (h : c.isDigit = true) : sepCh c = false := by
  unfold sepCh
  by_cases h1 : c = ','
  · subst h1; exact absurd h (by decide)
  by_cases h2 : c = ';'
  · subst h2; exact absurd h (by decide)
  simp [h1, h2]

theorem digitChar_isDigit {n : Nat} (h : n < 10) : (Nat.digitChar n).isDigit = true := by
  interval_cases n <;> decide

theorem digitVal_digitChar {n : Nat} (h : n < 10) : digitVal (Nat.digitChar n) = n := by
  interval_cases n <;> decide

/-! ## Lemmas about the decimal printer -/

theorem natToDigitsAux_append (fuel n : Nat) (acc : List Char) :
    natToDigitsAux fuel n acc = natToDigitsAux fuel n [] ++ acc := by
  induction fuel generalizing n acc with
  | zero => simp [natToDigitsAux]
  | succ fuel ih =>
    simp only [natToDigitsAux]
    split
    · simp
    · rw [ih (n / 10), ih (n / 10) (Nat.digitChar (n % 10) :: [])]
      simp

theorem natToDigitsAux_fuel (f1 f2 n : Nat) (acc : List Char) (h1 : n < f1) (h2 : n < f2) :
    natToDigitsAux f1 n acc = natToDigitsAux f2 n acc := by
  induction n using Nat.strong_induction_on generalizing f1 f2 acc with
  | _ n ih =>
    cases f1 with
    | zero => omega
    | succ g1 =>
      cases f2 with
      | zero => omega
      | succ g2 =>
        simp only [natToDigitsAux]
        split
        · rfl
        · rename_i h
          have hd : n / 10 < n := Nat.div_lt_self (by omega) (by omega)
          exact ih (n / 10) hd g1 g2 _ (by omega) (by omega)

theorem natToDigits_ne_nil (n : Nat) : natToDigits n ≠ [] := by
  unfold natToDigits
  simp only [natToDigitsAux]
  split
  · simp
  · rw [natToDigitsAux_append]
    simp

theorem natToDigitsAux_all_digit (fuel n : Nat) (acc : List Char)
    (hacc : ∀ c ∈ acc, c.isDigit = true) :
    ∀ c ∈ natToDigitsAux fuel n acc, c.isDigit = true := by
  induction fuel generalizing n acc with
  | zero => simpa [natToDigitsAux] using hacc
  | succ fuel ih =>
    simp only [natToDigitsAux]
    split
    · rename_i h
      intro c hc
      rcases List.mem_cons.mp hc with h' | h'
      · subst h'; exact digitChar_isDigit h
      · exact hacc c h'
    · intro c hc
      refine ih (n / 10) _ ?_ c hc
      intro d hd
      rcases List.mem_cons.mp hd with h' | h'
      · subst h'; exact digitChar_isDigit (Nat.mod_lt n (by omega))
      · exact hacc d h'

theorem natToDigits_all_digit (n : Nat) : ∀ c ∈ natToDigits n, c.isDigit = true :=
  natToDigitsAux_all_digit (n + 1) n [] (by simp)

theorem natToDigits_step (n : Nat) (h : ¬ n < 10) :
    natToDigits n = natToDigits (n / 10) ++ [Nat.digitChar (n % 10)] := by
  unfold natToDigits
  simp only [natToDigitsAux]
  rw [if_neg h]
  rw [natToDigitsAux_append]
  rw [natToDigitsAux_fuel n (n / 10 + 1) (n / 10) []
    (Nat.div_lt_self (by omega) (by omega)) (by omega)]
  rfl

theorem foldl_natToDigits (n : Nat) :
    List.foldl (fun acc c => acc * 10 + digitVal c) 0 (natToDigits n) = n := by
  induction n using Nat.strong_induction_on with
  | _ n ih =>
    by_cases h : n < 10
    · have hn : natToDigits n = [Nat.digitChar n] := by
        unfold natToDigits
        simp only [natToDigitsAux]
        rw [if_pos h]
      rw [hn]
      simp [digitVal_digitChar h]
    · rw [natToDigits_step n h, List.foldl_append]
      rw [ih (n / 10) (Nat.div_lt_self (by omega) (by omega))]
      simp only [List.foldl_cons, List.foldl_nil]
      rw [digitVal_digitChar (Nat.mod_lt n (by omega))]
      omega

theorem digitsVal_eq_foldl {s : List Char} (h : ∀ c ∈ s, c.isDigit = true) :
    digitsVal s = List.foldl (fun acc c => acc * 10 + digitVal c) 0 s := by
  unfold digitsVal
  congr 1
  refine List.filter_eq_self.mpr ?_
  intro a ha
  simp [isDigit_ne_underscore (h a ha)]

theorem digitsVal_natToDigits (n : Nat) : digitsVal (natToDigits n) = n := by
  rw [digitsVal_eq_foldl (natToDigits_all_digit n)]
  exact foldl_natToDigits n

theorem digitTail_all_digit : ∀ l : List Char, (∀ c ∈ l, c.isDigit = true) → digitTail l = true := by
  intro l
  induction l with
  | nil => intro _; rfl
  | cons c rest ih =>
    intro h
    have hc := h c (by simp)
    unfold digitTail
    rw [if_neg (isDigit_ne_underscore hc)]
    simp [hc, ih fun d hd => h d (by simp [hd])]

theorem digitRun_all_digit {l : List Char} (hne : l ≠ []) (h : ∀ c ∈ l, c.isDigit = true) :
    digitRun l = true := by
  cases l with
  | nil => exact absurd rfl hne
  | cons c rest =>
    simp [digitRun, h c (by simp), digitTail_all_digit rest fun d hd => h d (by simp [hd])]

theorem pyInt?_digits {l : List Char} (hne : l ≠ []) (h : ∀ c ∈ l, c.isDigit = true) :
    pyInt? l = some (digitsVal l : Int) := by
  have hstrip : pyStrip l = l := pyStrip_eq_self fun c hc => isDigit_not_ws (h c hc)
  cases l with
  | nil => exact absurd rfl hne
  | cons c rest =>
    have hc := h c (by simp)
    unfold pyInt?
    rw [hstrip]
    split
    · rename_i rest' heq
      exact absurd (List.cons.injEq .. ▸ heq).1 (isDigit_ne_plus hc)
    · rename_i rest' heq
      exact absurd (List.cons.injEq .. ▸ heq).1 (isDigit_ne_hyphen hc)
    · rw [digitRun_all_digit (by simp) h]
      simp

theorem intStr_nonneg {n : Int} (h : 0 ≤ n) : intStr n = natToDigits n.toNat := by
  unfold intStr
  rw [if_neg (by omega)]

theorem intStr_all_digit {n : Int} (h : 0 ≤ n) : ∀ c ∈ intStr n, c.isDigit = true := by
  rw [intStr_nonneg h]
  exact natToDigits_all_digit n.toNat

theorem intStr_ne_nil (n : Int) : intStr n ≠ [] := by
  unfold intStr
  split
  · simp
  · exact natToDigits_ne_nil n.toNat

theorem pyInt?_intStr {n : Int} (h : 0 ≤ n) : pyInt? (intStr n) = some n := by
  rw [intStr_nonneg h,
    pyInt?_digits (natToDigits_ne_nil n.toNat) (natToDigits_all_digit n.toNat),
    digitsVal_natToDigits]
  simp [Int.toNat_of_nonneg h]

theorem pyInt?_nonneg {s : List Char} {v : Int} (hs : '-' ∉ s) (h : pyInt? s = some v) :
    0 ≤ v := by
  unfold pyInt? at h
  split at h
  · split at h
    · rw [Option.some.injEq] at h
      subst h
      exact Int.natCast_nonneg _
    · exact absurd h (by simp)
  · rename_i rest heq
    have : '-' ∈ pyStrip s := by rw [heq]; simp
    exact absurd (mem_of_mem_pyStrip this) hs
  · split at h
    · rw [Option.some.injEq] at h
      subst h
      exact Int.natCast_nonneg _
    · exact absurd h (by simp)

/-! ## `List.contains` bridge lemmas -/

theorem not_mem_of_contains_eq_false {l : List Char} {a : Char}
    (h : l.contains a = false) : a ∉ l := by
  intro hm
  have h2 := List.elem_iff.mpr hm
  unfold List.contains at h
  rw [h2] at h
  exact absurd h (by simp)

theorem mem_of_contains_eq_true {l : List Char} {a : Char} (h : l.contains a = true) : a ∈ l := by
  unfold List.contains at h
  exact List.elem_iff.mp h

theorem contains_eq_true_of_mem {l : List Char} {a : Char} (h : a ∈ l) : l.contains a = true := by
  unfold List.contains
  exact List.elem_iff.mpr h

/-! ## The state invariant -/

theorem initState_good : goodState initState := by
  constructor
  · rfl
  · intro e he
    simp [initState] at he

theorem procToken_good {st st' : OORState} {part : List Char}
    (hg : goodState st) (h : procToken st part = some st') : goodState st' := by
  obtain ⟨hsum, hord⟩ := hg
  unfold procToken at h
  dsimp only at h
  split at h
  · rw [Option.some.injEq] at h
    subst h
    exact ⟨hsum, hord⟩
  · split at h
    · -- range branch
      split at h
      · rename_i a b heq
        split at h
        · rename_i s e hsa hsb
          split at h
          · exact absurd h (by simp)
          · rename_i hse
            rw [Option.some.injEq] at h
            subst h
            have hna : '-' ∉ a := by
              intro hm
              have := splitCh_piece_no_sep (fun c => c = '-') (pyStrip part) a
                (by rw [heq]; simp) '-' hm
              simp at this
            have hs0 : 0 ≤ s :=
              pyInt?_nonneg (fun hm => hna (mem_of_mem_pyStrip hm)) hsa
            refine ⟨?_, ?_⟩
            · simp [hsum]
            · intro e' he'
              rcases List.mem_append.mp he' with h' | h'
              · exact hord e' h'
              · simp at h'
                subst h'
                exact ⟨hs0, by omega⟩
        · exact absurd h (by simp)
      · exact absurd h (by simp)
    · -- single-number branch
      rename_i hnc
      split at h
      · rename_i n hn
        rw [Option.some.injEq] at h
        subst h
        have hnp : '-' ∉ pyStrip part :=
          not_mem_of_contains_eq_false (Bool.not_eq_true _ ▸ hnc)
        have hn0 : 0 ≤ n := pyInt?_nonneg hnp hn
        refine ⟨?_, ?_⟩
        · simp [hsum]
        · intro e' he'
          rcases List.mem_append.mp he' with h' | h'
          · exact hord e' h'
          · simp at h'
            subst h'
            exact ⟨hn0, le_refl n⟩
      · exact absurd h (by simp)

theorem parseLoop_good {st : OORState} (ts : List (List Char)) (hg : goodState st) :
    goodState (parseLoop st ts).2 := by
  induction ts generalizing st with
  | nil => exact hg
  | cons t ts ih =>
    unfold parseLoop
    cases h : procToken st t with
    | some st' => exact ih (procToken_good hg h)
    | none => exact hg

theorem parse_good (text : List Char) : goodState (parse text).2 := by
  unfold parse
  split
  · exact initState_good
  · exact parseLoop_good _ initState_good

/-! ## Failure characterization -/

theorem procToken_none_iff (st : OORState) (part : List Char) :
    procToken st part = none ↔ tokenFails part = true := by
  unfold procToken tokenFails
  dsimp only
  split
  · simp
  · split
    · split
      · split
        · split
          · rename_i hse
            simp [hse]
          · rename_i hse
            simp [hse]
        · simp
      · simp
    · cases hp : pyInt? (pyStrip part) <;> simp [hp]

theorem parseLoop_false_iff (st : OORState) (ts : List (List Char)) :
    (parseLoop st ts).1 = false ↔ ∃ t ∈ ts, tokenFails t = true := by
  induction ts generalizing st with
  | nil => simp [parseLoop]
  | cons t ts ih =>
    unfold parseLoop
    cases h : procToken st t with
    | some st' =>
      have hf : tokenFails t = false := by
        cases hft : tokenFails t with
        | false => rfl
        | true => rw [(procToken_none_iff st t).mpr hft] at h; exact absurd h (by simp)
      rw [ih st']
      simp [hf]
    | none =>
      have hft := (procToken_none_iff st t).mp h
      simp [hft]

theorem tokenFails_iff_malformed (t : List Char) :
    tokenFails t = true ↔ malformedToken t := by
  unfold tokenFails malformedToken
  dsimp only
  by_cases hemp : (pyStrip t).isEmpty = true
  · rw [if_pos hemp]
    simp [List.isEmpty_iff.mp hemp]
  · rw [if_neg hemp]
    have hne : pyStrip t ≠ [] := by simpa [List.isEmpty_iff] using hemp
    by_cases hc : (pyStrip t).contains '-' = true
    · rw [if_pos hc]
      have hmem : '-' ∈ pyStrip t := mem_of_contains_eq_true hc
      cases hsp : splitCh (fun c => c = '-') (pyStrip t) with
      | nil => exact absurd hsp (splitCh_ne_nil _ _)
      | cons a rest =>
        cases rest with
        | nil =>
          simp [hne, hc, hsp]
          exact Or.inr hmem
        | cons b rest2 =>
          cases rest2 with
          | nil =>
            cases ha : pyInt? (pyStrip a) with
            | none =>
              simp [hne, hc, hsp, ha]
              exact Or.inr (Or.inl hmem)
            | some x =>
              cases hb : pyInt? (pyStrip b) with
              | none =>
                simp [hne, hc, hsp, ha, hb]
                exact Or.inr (Or.inl hmem)
              | some y =>
                simp [hne, hc, hsp, ha, hb]
                constructor
                · intro hyx
                  exact Or.inr ⟨hmem, a, b, ⟨rfl, rfl⟩, x, ha, y, hb, hyx⟩
                · rintro (⟨hnm, _⟩ | ⟨_, a', b', ⟨rfl, rfl⟩, x', hx', y', hy', hlt⟩)
                  · exact absurd hmem hnm
                  · rw [ha, Option.some.injEq] at hx'
                    rw [hb, Option.some.injEq] at hy'
                    subst hx'
                    subst hy'
                    exact hlt
          | cons c rest3 =>
            simp [hne, hc, hsp]
            exact Or.inr hmem
    · rw [if_neg hc]
      have hcf : (pyStrip t).contains '-' = false := by simpa using hc
      have hnm : '-' ∉ pyStrip t := not_mem_of_contains_eq_false hcf
      simp only [Option.isNone_iff_eq_none]
      constructor
      · intro h
        exact ⟨hne, Or.inl ⟨hcf, h⟩⟩
      · rintro ⟨_, ⟨_, h⟩ | ⟨hct, _⟩ | ⟨hct, _⟩⟩
        · exact h
        · exact absurd (mem_of_contains_eq_true hct) hnm
        · exact absurd (mem_of_contains_eq_true hct) hnm

theorem parse_false_iff (text : List Char) :
    (parse text).1 = false ↔ ∃ t ∈ splitCh sepCh text, malformedToken t := by
  unfold parse
  split
  · rename_i hcond
    simp only [Bool.or_eq_true] at hcond
    have hstrip : pyStrip text = [] := by
      rcases hcond with h | h
      · rw [List.isEmpty_iff.mp h]; rfl
      · exact List.isEmpty_iff.mp h
    constructor
    · intro h
      simp at h
    · rintro ⟨t, ht, hmal⟩
      have hws : ∀ c ∈ t, pyWs c = true := fun c hc =>
        pyStrip_eq_nil_ws hstrip c (splitCh_piece_mem sepCh text t ht c hc)
      exact absurd (ws_pyStrip_eq_nil hws) hmal.1
  · rw [parseLoop_false_iff]
    constructor <;> rintro ⟨t, ht, h⟩
    · exact ⟨t, ht, (tokenFails_iff_malformed t).mp h⟩
    · exact ⟨t, ht, (tokenFails_iff_malformed t).mpr h⟩

/-! ## State after a failed parse -/

theorem parseLoop_false_state (st : OORState) (ts : List (List Char)) (stf : OORState)
    (h : parseLoop st ts = (false, stf)) :
    ∃ pre bad rest, ts = pre ++ bad :: rest ∧ foldTokens st pre = some stf ∧
      procToken stf bad = none := by
  induction ts generalizing st with
  | nil => simp [parseLoop] at h
  | cons t ts ih =>
    unfold parseLoop at h
    cases hp : procToken st t with
    | some st' =>
      rw [hp] at h
      obtain ⟨pre, bad, rest, h1, h2, h3⟩ := ih st' h
      exact ⟨t :: pre, bad, rest, by simp [h1], by simp [foldTokens, hp, h2], h3⟩
    | none =>
      rw [hp] at h
      rw [Prod.mk.injEq] at h
      obtain ⟨-, h2⟩ := h
      subst h2
      exact ⟨[], t, ts, rfl, rfl, hp⟩

theorem parse_false_state (text : List Char) (stf : OORState)
    (h : parse text = (false, stf)) :
    ∃ pre bad rest, splitCh sepCh text = pre ++ bad :: rest ∧
      foldTokens initState pre = some stf ∧ procToken stf bad = none := by
  unfold parse at h
  split at h
  · exact absurd h (by simp)
  · exact parseLoop_false_state _ _ _ h

/-! ## Round-trip of the reconstructed display -/

theorem isEmpty_false_of_ne_nil {α : Type} {l : List α} (h : l ≠ []) : l.isEmpty = false := by
  cases hl : l.isEmpty with
  | false => rfl
  | true => exact absurd (List.isEmpty_iff.mp hl) h

theorem digits_contains_hyphen_false {l : List Char} (h : ∀ c ∈ l, c.isDigit = true) :
    l.contains '-' = false := by
  cases hc : l.contains '-' with
  | false => rfl
  | true => exact absurd (h '-' (mem_of_contains_eq_true hc)) (by decide)

theorem commaSpace_data : (", ").data = [',', ' '] := rfl

theorem entryStr_chars {e : Int × Int} (h0 : 0 ≤ e.1) (h1 : e.1 ≤ e.2) :
    ∀ c ∈ entryStr e, c.isDigit = true ∨ c = '-' := by
  obtain ⟨a, b⟩ := e
  simp only at h0 h1
  unfold entryStr
  split
  · intro c hc
    exact Or.inl (intStr_all_digit h0 c hc)
  · intro c hc
    simp only [List.mem_append, List.mem_cons] at hc
    rcases hc with h | h | h
    · exact Or.inl (intStr_all_digit h0 c h)
    · exact Or.inr h
    · exact Or.inl (intStr_all_digit (le_trans h0 h1) c h)

theorem entryStr_no_ws {e : Int × Int} (h0 : 0 ≤ e.1) (h1 : e.1 ≤ e.2) :
    ∀ c ∈ entryStr e, pyWs c = false := by
  intro c hc
  rcases entryStr_chars h0 h1 c hc with h | h
  · exact isDigit_not_ws h
  · subst h; decide

theorem entryStr_no_sep {e : Int × Int} (h0 : 0 ≤ e.1) (h1 : e.1 ≤ e.2) :
    ∀ c ∈ entryStr e, sepCh c = false := by
  intro c hc
  rcases entryStr_chars h0 h1 c hc with h | h
  · exact isDigit_not_sep h
  · subst h; decide

theorem entryStr_head_digit {e : Int × Int} (h0 : 0 ≤ e.1) :
    ∃ d r, entryStr e = d :: r ∧ d.isDigit = true := by
  obtain ⟨a, b⟩ := e
  simp only at h0
  cases hna : natToDigits a.toNat with
  | nil => exact absurd hna (natToDigits_ne_nil _)
  | cons d r =>
    have hd : d.isDigit = true := natToDigits_all_digit a.toNat d (by rw [hna]; simp)
    unfold entryStr
    split
    · exact ⟨d, r, by rw [intStr_nonneg h0, hna], hd⟩
    · exact ⟨d, r ++ '-' :: intStr b, by rw [intStr_nonneg h0, hna]; rfl, hd⟩

theorem procToken_entry (acc : OORState) (e : Int × Int) (h0 : 0 ≤ e.1) (h1 : e.1 ≤ e.2)
    (t : List Char) (ht : pyStrip t = entryStr e) :
    procToken acc t = some ⟨acc.entries ++ [e], acc.total_qty + (e.2 - e.1 + 1)⟩ := by
  obtain ⟨a, b⟩ := e
  simp only at h0 h1 ⊢
  unfold procToken
  dsimp only
  rw [ht]
  by_cases hab : a = b
  · subst hab
    have hes : entryStr (a, a) = natToDigits a.toNat := by
      simp [entryStr, intStr_nonneg h0]
    rw [hes]
    rw [if_neg (by simp [isEmpty_false_of_ne_nil (natToDigits_ne_nil a.toNat)])]
    rw [if_neg fun hcon =>
      absurd (natToDigits_all_digit a.toNat '-' (mem_of_contains_eq_true hcon)) (by decide)]
    rw [pyInt?_digits (natToDigits_ne_nil a.toNat) (natToDigits_all_digit a.toNat),
      digitsVal_natToDigits]
    rw [Int.toNat_of_nonneg h0]
    have : a - a + 1 = (1 : Int) := by omega
    rw [this]
  · have hb0 : 0 ≤ b := le_trans h0 h1
    have hes : entryStr (a, b) = natToDigits a.toNat ++ '-' :: natToDigits b.toNat := by
      simp [entryStr, hab, intStr_nonneg h0, intStr_nonneg hb0]
    rw [hes]
    have hne : natToDigits a.toNat ++ '-' :: natToDigits b.toNat ≠ [] := by simp
    rw [if_neg (by simp [isEmpty_false_of_ne_nil hne])]
    have hcon : (natToDigits a.toNat ++ '-' :: natToDigits b.toNat).contains '-' = true :=
      contains_eq_true_of_mem (by simp)
    rw [if_pos (by simp [hcon])]
    have hsplit : splitCh (fun c => c = '-') (natToDigits a.toNat ++ '-' :: natToDigits b.toNat)
        = [natToDigits a.toNat, natToDigits b.toNat] := by
      rw [splitCh_append_sep _ _ _ _
        (fun c hc => by simp [isDigit_ne_hyphen (natToDigits_all_digit a.toNat c hc)])
        (by simp)]
      rw [splitCh_nosep _ _
        (fun c hc => by simp [isDigit_ne_hyphen (natToDigits_all_digit b.toNat c hc)])]
    rw [hsplit]
    have hsa : pyStrip (natToDigits a.toNat) = natToDigits a.toNat :=
      pyStrip_eq_self fun c hc => isDigit_not_ws (natToDigits_all_digit a.toNat c hc)
    have hsb : pyStrip (natToDigits b.toNat) = natToDigits b.toNat :=
      pyStrip_eq_self fun c hc => isDigit_not_ws (natToDigits_all_digit b.toNat c hc)
    dsimp only
    rw [hsa, hsb]
    rw [pyInt?_digits (natToDigits_ne_nil a.toNat) (natToDigits_all_digit a.toNat),
      digitsVal_natToDigits,
      pyInt?_digits (natToDigits_ne_nil b.toNat) (natToDigits_all_digit b.toNat),
      digitsVal_natToDigits]
    rw [Int.toNat_of_nonneg h0, Int.toNat_of_nonneg hb0]
    dsimp only
    rw [if_neg (by omega)]

theorem parseLoop_entryTokens (es : List (Int × Int)) (acc : OORState)
    (hes : ∀ e ∈ es, 0 ≤ e.1 ∧ e.1 ≤ e.2) :
    parseLoop acc (es.map fun e => ' ' :: entryStr e) =
      (true, ⟨acc.entries ++ es, acc.total_qty + (es.map fun e => e.2 - e.1 + 1).sum⟩) := by
  induction es generalizing acc with
  | nil =>
    obtain ⟨ents, qty⟩ := acc
    simp [parseLoop]
  | cons e es ih =>
    obtain ⟨h0, h1⟩ := hes e (by simp)
    have hps : pyStrip (' ' :: entryStr e) = entryStr e := by
      rw [pyStrip_cons_ws _ (by decide)]
      exact pyStrip_eq_self (entryStr_no_ws h0 h1)
    simp only [List.map_cons]
    unfold parseLoop
    rw [procToken_entry acc e h0 h1 _ hps]
    dsimp only
    rw [ih _ fun e' he' => hes e' (by simp [he'])]
    simp [OORState.mk.injEq, List.append_assoc]
    omega

theorem joinSep_cons_ex (sep : List Char) (x : List Char) (xs : List (List Char)) :
    ∃ suffix, joinSep sep (x :: xs) = x ++ suffix := by
  cases xs with
  | nil => exact ⟨[], by simp [joinSep]⟩
  | cons y ys => exact ⟨sep ++ joinSep sep (y :: ys), by simp [joinSep]⟩

theorem splitCh_join_tokens (x : List Char) (xs : List (List Char))
    (hx : ∀ c ∈ x, sepCh c = false) (hxs : ∀ l ∈ xs, ∀ c ∈ l, sepCh c = false) :
    splitCh sepCh (joinSep ((", ").data) (x :: xs)) = x :: xs.map fun l => ' ' :: l := by
  induction xs generalizing x with
  | nil =>
    simp only [joinSep, List.map_nil]
    exact splitCh_nosep sepCh x hx
  | cons y ys ih =>
    have hstep : joinSep ((", ").data) (x :: y :: ys) =
        x ++ ',' :: ' ' :: joinSep ((", ").data) (y :: ys) := by
      simp [joinSep, commaSpace_data]
    rw [hstep]
    rw [splitCh_append_sep sepCh x ',' (' ' :: joinSep ((", ").data) (y :: ys)) hx (by decide)]
    have hrec := ih y (hxs y (by simp)) fun l hl => hxs l (by simp [hl])
    cases hsp : splitCh sepCh (joinSep ((", ").data) (y :: ys)) with
    | nil => exact absurd hsp (splitCh_ne_nil _ _)
    | cons t ts =>
      rw [splitCh_cons_piece sepCh ' ' _ (by decide) t ts hsp]
      rw [hsp] at hrec
      rw [List.cons.injEq] at hrec
      obtain ⟨hty, hts⟩ := hrec
      subst hty
      subst hts
      simp

theorem parse_reconstruct (st : OORState) (hg : goodState st) (hne : st.entries ≠ []) :
    parse (reconstruct st) = (true, st) := by
  obtain ⟨ents, qty⟩ := st
  obtain ⟨hsum, hord⟩ := hg
  simp only at hsum hord hne
  cases ents with
  | nil => exact absurd rfl hne
  | cons e es =>
    obtain ⟨h0, h1⟩ := hord e (by simp)
    have htok : splitCh sepCh (reconstruct ⟨e :: es, qty⟩) =
        entryStr e :: es.map fun e' => ' ' :: entryStr e' := by
      unfold reconstruct
      simp only [List.map_cons]
      rw [splitCh_join_tokens (entryStr e) (es.map entryStr)
        (entryStr_no_sep h0 h1)
        (fun l hl => by
          obtain ⟨e', he', rfl⟩ := List.mem_map.mp hl
          obtain ⟨h0', h1'⟩ := hord e' (by simp [he'])
          exact entryStr_no_sep h0' h1')]
      simp [List.map_map, Function.comp]
    obtain ⟨d, r, hdr, hd⟩ := entryStr_head_digit (e := e) h0
    obtain ⟨suffix, hsuf⟩ := joinSep_cons_ex ((", ").data) (entryStr e) (es.map entryStr)
    have htext : ∃ tl, reconstruct ⟨e :: es, qty⟩ = d :: tl := by
      refine ⟨r ++ suffix, ?_⟩
      unfold reconstruct
      simp only [List.map_cons]
      rw [hsuf, hdr]
      simp
    obtain ⟨tl, htl⟩ := htext
    unfold parse
    rw [if_neg ?_]
    · rw [htok]
      unfold parseLoop
      have hps : pyStrip (entryStr e) = entryStr e := pyStrip_eq_self (entryStr_no_ws h0 h1)
      rw [procToken_entry initState e h0 h1 _ hps]
      dsimp only
      rw [parseLoop_entryTokens es _ fun e' he' => hord e' (by simp [he'])]
      rw [Prod.mk.injEq, OORState.mk.injEq]
      refine ⟨rfl, rfl, ?_⟩
      rw [hsum]
      simp only [List.map_cons, List.sum_cons, initState]
      omega
    · rw [htl]
      simp only [Bool.or_eq_true]
      rintro (h | h)
      · simp at h
      · have hnil : pyStrip (d :: tl) = [] := List.isEmpty_iff.mp h
        have hws := pyStrip_eq_nil_ws hnil d (by simp)
        rw [ws_not_digit hws] at hd
        exact absurd hd (by simp)

/-! ## Miscellaneous bridges -/

theorem digitsVal_nil : digitsVal [] = 0 := rfl

theorem parse_all_ws (text : List Char) (h : ∀ c ∈ text, pyWs c = true) :
    parse text = (true, initState) := by
  unfold parse
  rw [if_pos ?_]
  rw [ws_pyStrip_eq_nil h]
  simp

theorem joinSep_eq_intercalate (sep : List Char) (xs : List (List Char)) :
    joinSep sep xs = List.intercalate sep xs := by
  induction xs with
  | nil => simp [joinSep, List.intercalate]
  | cons x xs ih =>
    cases xs with
    | nil => simp [joinSep, List.intercalate]
    | cons y ys =>
      simp only [joinSep]
      rw [ih]
      simp [List.intercalate, List.intersperse]

theorem joinSep_append_singleton (sep : List Char) (xs : List (List Char)) (y : List Char)
    (hne : xs ≠ []) : joinSep sep (xs ++ [y]) = joinSep sep xs ++ sep ++ y := by
  induction xs with
  | nil => exact absurd rfl hne
  | cons x xs ih =>
    cases xs with
    | nil => simp [joinSep]
    | cons z zs =>
      simp only [List.cons_append, joinSep, List.append_eq]
      rw [← List.cons_append, ih (by simp)]
      simp [List.append_assoc]

theorem breakdownLines_enumFrom (i : Nat) (es : List (Int × Int)) :
    breakdownLines i es = (List.enumFrom i es).map fun p =>
      if p.2.1 = p.2.2 then
        natToDigits p.1 ++ (". ").data ++ intStr p.2.1 ++ (" (1 item)").data
      else
        natToDigits p.1 ++ (". ").data ++ intStr p.2.1 ++ '-' :: intStr p.2.2 ++
          (" (").data ++ intStr (p.2.2 - p.2.1 + 1) ++ (" items)").data := by
  induction es generalizing i with
  | nil => simp [breakdownLines]
  | cons e es ih => simp [breakdownLines, List.enumFrom, ih]

/-! ## Claim theorems -/

/-- C1, counterexample: the claim states that whenever `parse` returns
`false` the final state is the empty reset state.  On the input
`"1-3,abc"` `parse` returns `false` yet the final state keeps the
interval accumulated from the first token: `entries = [(1, 3)]` and
`total_qty = 3`, so partial results are observable after a failed
parse. -/
theorem parse_failure_empty_state_counterexample :
    (parse (("1-3,abc").data)).1 = false ∧
      (parse (("1-3,abc").data)).2.entries = [((1 : Int), (3 : Int))] ∧
      (parse (("1-3,abc").data)).2.total_qty = 3 ∧
      ¬ ((parse (("1-3,abc").data)).2.entries = [] ∧
        (parse (("1-3,abc").data)).2.total_qty = 0) := by
  decide

/-- C1, amended: for every input text on which `parse` returns `false`,
the final state is the reset state extended by exactly the intervals
accumulated from the tokens before the first failing token of the same
call — state from previous calls is discarded by the reset at the start
of the call, but partial results of the current call are retained and
observable after the failure. -/
theorem parse_failure_partial_state (text : List Char) (stf : OORState)
    (h : parse text = (false, stf)) :
    ∃ pre bad rest, splitCh sepCh text = pre ++ bad :: rest ∧
      foldTokens initState pre = some stf ∧ procToken stf bad = none :=
  parse_false_state text stf h

/-- Witness for C1 (amended) at the input `"1-3,abc"`. -/
theorem parse_failure_partial_state_witness :
    ∃ pre bad rest, splitCh sepCh (("1-3,abc").data) = pre ++ bad :: rest ∧
      foldTokens initState pre = some ⟨[((1 : Int), (3 : Int))], 3⟩ ∧
      procToken ⟨[((1 : Int), (3 : Int))], 3⟩ bad = none :=
  parse_failure_partial_state (("1-3,abc").data) ⟨[((1 : Int), (3 : Int))], 3⟩ (by decide)

/-- C2: for every input text on which `parse` returns `true`, after the
call `total_qty` equals the sum of `(end - start + 1)` over all
intervals in `entries`, and every interval in `entries` satisfies
`start <= end`. -/
theorem parse_true_invariant (text : List Char) (st : OORState)
    (h : parse text = (true, st)) :
    st.total_qty = (st.entries.map fun e => e.2 - e.1 + 1).sum ∧
      ∀ e ∈ st.entries, e.1 ≤ e.2 := by
  have hg := parse_good text
  rw [h] at hg
  exact ⟨hg.1, fun e he => (hg.2 e he).2⟩

/-- Witness for C2 at the input `"1-3, 7"`. -/
theorem parse_true_invariant_witness :
    ((⟨[((1 : Int), (3 : Int)), (7, 7)], 4⟩ : OORState).total_qty =
      ((⟨[((1 : Int), (3 : Int)), (7, 7)], 4⟩ : OORState).entries.map
        fun e => e.2 - e.1 + 1).sum) ∧
      ∀ e ∈ (⟨[((1 : Int), (3 : Int)), (7, 7)], 4⟩ : OORState).entries, e.1 ≤ e.2 :=
  parse_true_invariant (("1-3, 7").data) ⟨[((1 : Int), (3 : Int)), (7, 7)], 4⟩ (by decide)

/-- C3: for every input that is empty or consists only of whitespace,
`parse` returns `true` and leaves `entries = []` and `total_qty = 0`
(success, not an error). -/
theorem parse_blank_input (text : List Char) (h : ∀ c ∈ text, pyWs c = true) :
    parse text = (true, ⟨[], 0⟩) :=
  parse_all_ws text h

/-- Witness for C3 at the inputs `""` and `"   "`. -/
theorem parse_blank_input_witness :
    parse (("").data) = (true, ⟨[], 0⟩) ∧ parse (("   ").data) = (true, ⟨[], 0⟩) :=
  ⟨parse_blank_input (("").data) (by decide), parse_blank_input (("   ").data) (by decide)⟩

/-- C4: `parse` returns `false` iff some non-empty trimmed token of the
input (split on commas and semicolons) is malformed — a hyphen-free
token that does not parse as a base-10 integer, a hyphenated token that
does not split into exactly two integer parts, or a range whose first
integer is greater than its second; in particular the inputs `"10-5"`,
`"abc"`, `"1-2-3"` and `"1-"` are all rejected. -/
theorem parse_false_iff_malformed_token :
    (∀ text : List Char,
      (parse text).1 = false ↔ ∃ t ∈ splitCh sepCh text, malformedToken t) ∧
    (parse (("10-5").data)).1 = false ∧ (parse (("abc").data)).1 = false ∧
    (parse (("1-2-3").data)).1 = false ∧ (parse (("1-").data)).1 = false :=
  ⟨parse_false_iff, by decide, by decide, by decide, by decide⟩

/-- C5: for every input text on which `parse` succeeds, if the full
reconstruction built by `format_display` fits within `max_length`, then
re-parsing the string returned by `format_display` succeeds and yields
the same state — the same `entries` and the same `total_qty` — as the
original parse. -/
theorem format_display_roundtrip (text : List Char) (max_length : Nat) (st : OORState)
    (h : parse text = (true, st)) (hlen : (reconstruct st).length ≤ max_length) :
    parse (format_display st max_length) = (true, st) := by
  have hg : goodState st := by
    have hx := parse_good text
    rw [h] at hx
    exact hx
  by_cases hne : st.entries = []
  · have hq : st.total_qty = 0 := by rw [hg.1, hne]; rfl
    have hst : st = initState := by
      obtain ⟨ents, qty⟩ := st
      simp only at hne hq
      subst hne
      subst hq
      rfl
    subst hst
    unfold format_display
    rw [if_pos (by simp [initState])]
    rfl
  · unfold format_display
    rw [if_neg (by simp [isEmpty_false_of_ne_nil hne])]
    dsimp only
    rw [if_pos hlen]
    exact parse_reconstruct st hg hne

/-- Witness for C5 at the input `"1-3, 7"` with `max_length = 50`. -/
theorem format_display_roundtrip_witness :
    parse (format_display ⟨[((1 : Int), (3 : Int)), (7, 7)], 4⟩ 50) =
      (true, ⟨[((1 : Int), (3 : Int)), (7, 7)], 4⟩) :=
  format_display_roundtrip (("1-3, 7").data) 50 ⟨[((1 : Int), (3 : Int)), (7, 7)], 4⟩
    (by decide) (by decide)

/-- C6: `format_display` is a pure function of the state: with no
entries it returns the empty string; otherwise it builds the `", "`-
joined reconstruction — `"start-end"` for an interval with
`start != end`, `"start"` for a single — returns it if its length is at
most `max_length`, and otherwise returns exactly
`"<N> entries (<total_qty>)"` with `N` the number of entries. -/
theorem format_display_spec (st : OORState) (max_length : Nat) :
    format_display st max_length =
      if st.entries = [] then []
      else
        if (List.intercalate ((", ").data) (st.entries.map fun e =>
            if e.1 = e.2 then intStr e.1 else intStr e.1 ++ '-' :: intStr e.2)).length ≤
            max_length then
          List.intercalate ((", ").data) (st.entries.map fun e =>
            if e.1 = e.2 then intStr e.1 else intStr e.1 ++ '-' :: intStr e.2)
        else
          natToDigits st.entries.length ++ (" entries (").data ++ intStr st.total_qty ++
            (")").data := by
  have hrec : List.intercalate ((", ").data) (st.entries.map fun e =>
      if e.1 = e.2 then intStr e.1 else intStr e.1 ++ '-' :: intStr e.2) = reconstruct st := by
    rw [← joinSep_eq_intercalate]
    rfl
  rw [hrec]
  unfold format_display
  by_cases hne : st.entries = []
  · rw [if_pos (by simp [hne]), if_pos hne]
  · rw [if_neg (by simp [isEmpty_false_of_ne_nil hne]), if_neg hne]

/-- C7: `calculate_qty_from_range` keeps only the digit characters of
each argument (an empty digit extraction counting as 0) and returns
`end - beg + 1` exactly when the extracted beginning number is positive
and the extracted ending number is at least it, returning 0 in every
other case (the embedding is total, so no exception escapes); in
particular `("A1000", "A1010")` yields 11 and `("1010", "1000")`
yields 0. -/
theorem calculate_qty_from_range_spec :
    (∀ b e : List Char, calculate_qty_from_range b e =
      if 0 < extractNum b ∧ extractNum b ≤ extractNum e
      then extractNum e - extractNum b + 1 else 0) ∧
    calculate_qty_from_range (("A1000").data) (("A1010").data) = 11 ∧
    calculate_qty_from_range (("1010").data) (("1000").data) = 0 := by
  refine ⟨?_, by decide, by decide⟩
  intro b e
  unfold calculate_qty_from_range extractNum
  dsimp only
  split
  · rename_i h1
    rw [Bool.and_eq_true] at h1
    obtain ⟨-, hbd⟩ := h1
    rw [List.isEmpty_iff.mp hbd]
    rw [if_neg (by rw [digitsVal_nil]; rintro ⟨hpos, -⟩; simp at hpos)]
  · split
    · rename_i h1 h2
      rw [Bool.and_eq_true] at h2
      obtain ⟨-, hed⟩ := h2
      rw [List.isEmpty_iff.mp hed]
      rw [if_neg ?_]
      rw [digitsVal_nil]
      rintro ⟨hpos, hle⟩
      simp only [Nat.cast_zero] at hle
      omega
    · rename_i h1 h2
      have hbv : (if b.isEmpty then (0 : Int) else (digitsVal (b.filter Char.isDigit) : Int))
          = (digitsVal (b.filter Char.isDigit) : Int) := by
        split
        · rename_i hbe
          rw [List.isEmpty_iff.mp hbe]
          simp [digitsVal_nil]
        · rfl
      have hev : (if e.isEmpty then (0 : Int) else (digitsVal (e.filter Char.isDigit) : Int))
          = (digitsVal (e.filter Char.isDigit) : Int) := by
        split
        · rename_i hee
          rw [List.isEmpty_iff.mp hee]
          simp [digitsVal_nil]
        · rfl
      rw [hbv, hev]

/-- C8: `get_detailed_breakdown` returns the literal `"No entries"` when
`entries` is empty; otherwise a newline-joined, 1-indexed listing with
one line per entry — `"<i>. <start> (1 item)"` for a single and
`"<i>. <start>-<end> (<count> items)"` with `count = end - start + 1`
otherwise — followed by a blank line and a final
`"Total: <total_qty> items"` line. -/
theorem get_detailed_breakdown_spec (st : OORState) :
    get_detailed_breakdown st =
      if st.entries = [] then ("No entries").data
      else
        List.intercalate (("\n").data)
          ((List.enumFrom 1 st.entries).map fun p =>
            if p.2.1 = p.2.2 then
              natToDigits p.1 ++ (". ").data ++ intStr p.2.1 ++ (" (1 item)").data
            else
              natToDigits p.1 ++ (". ").data ++ intStr p.2.1 ++ '-' :: intStr p.2.2 ++
                (" (").data ++ intStr (p.2.2 - p.2.1 + 1) ++ (" items)").data) ++
          ("\n\nTotal: ").data ++ intStr st.total_qty ++ (" items").data := by
  unfold get_detailed_breakdown
  by_cases hne : st.entries = []
  · rw [if_pos (by simp [hne]), if_pos hne]
  · rw [if_neg (by simp [isEmpty_false_of_ne_nil hne]), if_neg hne]
    rw [joinSep_append_singleton _ _ _ ?_]
    · rw [breakdownLines_enumFrom, joinSep_eq_intercalate]
      simp [List.append_assoc]
    · cases hents : st.entries with
      | nil => exact absurd hents hne
      | cons a l => simp [breakdownLines]

/-- C9: `validate_oor_text` builds a fresh parser and returns
`(true, "")` exactly when `parse` accepts the text, and exactly when
`parse` rejects it returns `(false, m)` where `m` is the fixed, input-
independent, non-empty error message `oorErrorMsg`. -/
theorem validate_oor_text_spec (text : List Char) :
    (validate_oor_text text = (true, []) ↔ (parse text).1 = true) ∧
    (validate_oor_text text = (false, oorErrorMsg) ↔ (parse text).1 = false) ∧
    oorErrorMsg ≠ [] := by
  refine ⟨?_, ?_, by decide⟩ <;> unfold validate_oor_text <;>
    cases hp : (parse text).1 <;> simp [oorErrorMsg]

/-- C10: after every call to `parse` — including calls that return
`false` — the instance state satisfies the internal-consistency
invariant: `total_qty` equals the sum of `(end - start + 1)` over the
intervals currently in `entries`, and every retained interval satisfies
`start <= end`. -/
theorem parse_state_invariant (text : List Char) :
    (parse text).2.total_qty = ((parse text).2.entries.map fun e => e.2 - e.1 + 1).sum ∧
      ∀ e ∈ (parse text).2.entries, e.1 ≤ e.2 := by
  have hg := parse_good text
  exact ⟨hg.1, fun e he => (hg.2 e he).2⟩
